import Mathlib

/-!
Verification of the granite backing-storage library.

Shallow embedding of the two storage engines of the crate:

* `SparseStorage` (src/list/sparse.rs): a list of tagged `Slot`s (element or
  hole) together with the free-list bookkeeping `hole_list : Option (count,
  head, tail)`.  The generic backing `ListStorage` is instantiated with the
  canonical `Vec` instance, modelled as a Lean `List`.
* `Chain` (src/list/chain/mod.rs): an outer list of buffer lists plus the
  cached total length and the `(limit, allocate_to_limit)` configuration
  (modelled as two fields; the bit-packing of `UsizeAndFlag` is memory
  layout only).

Rust panics are modelled by `Except` results whose error value carries the
message together with the state of the storage at the instant of the panic
(so that "fails without mutating" is expressible).  Functions that return
`Option` in Rust (`get`, `pop`) keep `Option` results: a `none` there is a
regular return value, not a panic.
-/

namespace Granite

/-- Tagged slot of a sparse storage: either an element or a hole carrying the
optional index of the next hole in the free list (`SlotEnumBased` in
src/list/sparse.rs). -/
inductive Slot (E : Type) where
  | element : E → Slot E
  | hole : Option Nat → Slot E
deriving DecidableEq

namespace Slot

variable {E : Type}

/-- Discriminant test `Slot::is_element`. -/
def isElement : Slot E → Bool
  | .element _ => true
  | .hole _ => false

/-- Discriminant test `Slot::is_hole`. -/
def isHole : Slot E → Bool
  | .element _ => false
  | .hole _ => true

/-- Projection of the element, `Slot::element_checked`. -/
def element? : Slot E → Option E
  | .element e => some e
  | .hole _ => none

/-- The hole link of a slot (`Slot::hole_link`).  Calling it on an element is
undefined behavior in the source; the model returns `none` there, a branch
never reached under the free-list invariant. -/
def holeLink? : Slot E → Option Nat
  | .element _ => none
  | .hole l => l

/-- Overwrite the hole link (`Slot::set_hole_link`).  On an element slot the
source is undefined behavior; the model leaves the slot unchanged, a branch
never reached under the free-list invariant. -/
def setHoleLink : Slot E → Option Nat → Slot E
  | .element e, _ => .element e
  | .hole _, l => .hole l

/-- Turn the slot into a hole with the given link, returning the previous
element if there was one (`Slot::punch_hole` / `SlotEnumBased::punch_hole`). -/
def punchHole : Slot E → Option Nat → Option E × Slot E
  | .element e, l => (some e, .hole l)
  | .hole l0, _ => (none, .hole l0)

end Slot

/-- The panic message used by sparse storage when a hole is accessed. -/
def holeMsg : String := "the element at the specified index was a hole in the sparse storage"

/-- The panic message of `unimplemented!` raised by raw removal from a
non-dense sparse storage. -/
def rawRemovalMsg : String :=
  "cannot perform raw removal from sparse storage without defragmenting"

/-- The panic message of out-of-bounds indexing. -/
def oobMsg : String := "index out of bounds"

/-- Sparse storage: the backing list of slots plus the free-list record
`hole_list = Option (length, first, last)` (src/list/sparse.rs, struct
`SparseStorage`).  The `NonZeroUsize` count is modelled as a `Nat` that is
positive in every reachable state. -/
structure SparseStorage (E : Type) where
  storage : List (Slot E)
  holeList : Option (Nat × Nat × Nat)
deriving DecidableEq

namespace SparseStorage

variable {E : Type}

/-- `ListStorage::len` for sparse storage: delegates to the backing list. -/
def len (s : SparseStorage E) : Nat := s.storage.length

/-- `SparseStorage::num_holes`: the tracked hole count, `0` when the free
list is absent. -/
def numHoles (s : SparseStorage E) : Nat :=
  match s.holeList with
  | none => 0
  | some (c, _, _) => c

/-- `SparseStorage::is_dense`. -/
def isDense (s : SparseStorage E) : Bool := s.numHoles == 0

/-- `SparseStorage::punch_hole`: sets slot `index` to a hole with no link,
and on success appends it at the tail of the free list (incrementing the
count and updating the previous tail's link), or creates a one-hole free
list.  Returns the displaced element, `none` if the slot was already a
hole. -/
def punchHole (s : SparseStorage E) (index : Nat) : Option E × SparseStorage E :=
  match s.storage[index]? with
  | none => (none, s)
  | some sl =>
    match sl.punchHole none with
    | (none, _) => (none, s)
    | (some v, holed) =>
      let st1 := s.storage.set index holed
      match s.holeList with
      | some (c, h, t) =>
        let st2 :=
          match st1[t]? with
          | some tailSlot => st1.set t (tailSlot.setHoleLink (some index))
          | none => st1
        (some v, ⟨st2, some (c + 1, h, index)⟩)
      | none => (some v, ⟨st1, some (1, index, index)⟩)

/-- `SparseStorage::remove_and_shiftfix`: bounds assertion, then
`punch_hole`, panicking (with the hole message) if the slot was already a
hole.  No element is shifted and no `MoveFix` hook is invoked. -/
def removeAndShiftfix (s : SparseStorage E) (index : Nat) :
    Except (String × SparseStorage E) (E × SparseStorage E) :=
  if s.len ≤ index then .error (oobMsg, s)
  else
    match s.punchHole index with
    | (some v, s') => .ok (v, s')
    | (none, s') => .error (holeMsg, s')

/-- `ListStorage::add` for sparse storage: reuse the head hole of the free
list if one exists (relinking the head and decrementing the count, dropping
the free list when the count reaches zero), otherwise push at the tail.
Returns the index used.  Reading the link of the head hole is
`get_unchecked` + `hole_link` in the source; out-of-range or non-hole heads
are undefined behavior there and fall back to defaults here, branches never
reached under the free-list invariant. -/
def add (s : SparseStorage E) (x : E) : Nat × SparseStorage E :=
  match s.holeList with
  | some (c, h, t) =>
    let nextHole : Option Nat :=
      match s.storage[h]? with
      | some sl => sl.holeLink?
      | none => none
    let st := s.storage.set h (.element x)
    if c - 1 == 0 then (h, ⟨st, none⟩)
    else (h, ⟨st, some (c - 1, nextHole.getD 0, t)⟩)
  | none =>
    let st := s.storage ++ [.element x]
    (st.length - 1, ⟨st, none⟩)

/-- Checked `ListStorage::get` of sparse storage: `none` past the end,
panic (error) on a hole slot, the element otherwise. -/
def getE (s : SparseStorage E) (index : Nat) : Except String (Option E) :=
  match s.storage[index]? with
  | some (.element e) => .ok (some e)
  | some (.hole _) => .error holeMsg
  | none => .ok none

/-- `ListStorage::remove` for sparse storage: raw shifting removal is only
available when the storage is dense; otherwise `unimplemented!` fires before
anything is mutated.  In the dense branch the backing list's `remove` runs
(panicking when out of bounds) and the removed slot is unwrapped, which
would panic on a hole (after the backing removal already happened). -/
def removeSparse (s : SparseStorage E) (index : Nat) :
    Except (String × SparseStorage E) (E × SparseStorage E) :=
  if s.isDense then
    match s.storage[index]? with
    | some sl =>
      let s' : SparseStorage E := ⟨s.storage.eraseIdx index, s.holeList⟩
      match sl.element? with
      | some e => .ok (e, s')
      | none => .error (holeMsg, s')
    | none => .error (oobMsg, s)
  else .error (rawRemovalMsg, s)

/-- `ListStorage::pop` for sparse storage: like `removeSparse`, only
available when dense; pops the backing list and unwraps the slot. -/
def popSparse (s : SparseStorage E) :
    Except (String × SparseStorage E) (Option E × SparseStorage E) :=
  if s.isDense then
    match s.storage.getLast? with
    | some sl =>
      let s' : SparseStorage E := ⟨s.storage.dropLast, s.holeList⟩
      match sl.element? with
      | some e => .ok (some e, s')
      | none => .error (holeMsg, s')
    | none => .ok (none, s)
  else .error (rawRemovalMsg, s)

end SparseStorage

/-- Exchange of the slots at positions `i` and `j`
(`ptr::swap_nonoverlapping` in `defragment_impl`); identity when either
index is out of range (the source guarantees both are in range). -/
def listSwap {α : Type} (l : List α) (i j : Nat) : List α :=
  match l[i]?, l[j]? with
  | some a, some b => (l.set i b).set j a
  | _, _ => l

/-- Inner backward scan of `defragment_impl` for the hole at position `i`:
walks the index list `js` (the source iterates `(0..len).rev()`), breaks on
reaching `i` ("Don't move holes back to the beginning"), and swaps slot `i`
with every element slot it passes.  The source has no break after a swap,
so one hole can be swapped several times. -/
def defragInner {E : Type} (i : Nat) : List Nat → List (Slot E) → List (Slot E)
  | [], st => st
  | j :: js, st =>
    if j = i then st
    else
      match st[j]? with
      | some sl =>
        if sl.isElement then defragInner i js (listSwap st i j)
        else defragInner i js st
      | none => defragInner i js st

/-- Outer forward scan of `defragment_impl`: for each index of `0..len` in
order, if the slot currently there is a hole, run the backward scan. -/
def defragOuter {E : Type} : List Nat → List (Slot E) → List (Slot E)
  | [], st => st
  | i :: rest, st =>
    match st[i]? with
    | some sl =>
      if sl.isHole then
        defragOuter rest (defragInner i ((List.range st.length).reverse) st)
      else defragOuter rest st
    | none => defragOuter rest st

/-- Number of hole slots of a backing list. -/
def countHoles {E : Type} (st : List (Slot E)) : Nat := st.countP Slot.isHole

/-- Whether position `p` of a backing list holds an element slot. -/
def elemAtB {E : Type} (st : List (Slot E)) (p : Nat) : Bool :=
  match st[p]? with
  | some sl => sl.isElement
  | none => false

/-- Whether position `p` of a backing list holds a hole slot. -/
def holeAtB {E : Type} (st : List (Slot E)) (p : Nat) : Bool :=
  match st[p]? with
  | some sl => sl.isHole
  | none => false

/-- The holes of the first `n` positions are upward closed: below `n`, a
hole is never followed (at any distance, to the end of the list) by an
element.  `HolesClosed st st.length` says the holes form a suffix. -/
def HolesClosed {E : Type} (st : List (Slot E)) (n : Nat) : Prop :=
  ∀ p, p < n → holeAtB st p = true → ∀ q, p ≤ q → q < st.length → holeAtB st q = true

/-- The live element values of a backing list, in slot order. -/
def liveElems {E : Type} (st : List (Slot E)) : List E := st.filterMap Slot.element?

/-- `SparseStorage::defragment`, i.e. `defragment_impl` with the no-op
callback: early return when there is no free list; otherwise the swap
phase, then `min(len, hole_count)` pops off the backing list's tail, then
the free list is cleared. -/
def SparseStorage.defragment {E : Type} (s : SparseStorage E) : SparseStorage E :=
  match s.holeList with
  | none => s
  | some (c, _, _) =>
    let st := defragOuter (List.range s.storage.length) s.storage
    ⟨st.take (st.length - min st.length c), none⟩

/-- `SparseStorage::defragment_and_fix` for elements wrapped in
`DummyMoveFix` (the only `MoveFix` implementation the crate ships): its
`fix_move` hook does nothing, so the computation coincides with
`defragment`'s. -/
def SparseStorage.defragmentAndFixDummy {E : Type} (s : SparseStorage E) : SparseStorage E :=
  match s.holeList with
  | none => s
  | some (c, _, _) =>
    let st := defragOuter (List.range s.storage.length) s.storage
    ⟨st.take (st.length - min st.length c), none⟩

/-- Modelled from the spec: the `fix_move(previous, current)` hook of a test
element type that stores its own index, per §4.3 ("any reference equal to
`previous_index` must become `current_index`") and §8 ("a test element whose
stored back-reference is checked against its own current key after
compaction").  The crate itself ships only the no-op `DummyMoveFix`, so the
index-tracking element is taken from the spec's test description. -/
def testFixMove (st : List (Slot Nat)) (prev cur : Nat) : List (Slot Nat) :=
  st.map fun sl =>
    match sl with
    | .element e => .element (if e = prev then cur else e)
    | .hole l => .hole l

/-- Inner backward scan of `defragment_impl` as invoked by
`defragment_and_fix` over index-tracking test elements: after each swap of
slots `j` and `i` the callback `E::fix_move(self, j, i)` runs. -/
def defragInnerFix (i : Nat) : List Nat → List (Slot Nat) → List (Slot Nat)
  | [], st => st
  | j :: js, st =>
    if j = i then st
    else
      match st[j]? with
      | some sl =>
        if sl.isElement then defragInnerFix i js (testFixMove (listSwap st i j) j i)
        else defragInnerFix i js st
      | none => defragInnerFix i js st

/-- Outer forward scan of `defragment_impl` as invoked by
`defragment_and_fix` over index-tracking test elements. -/
def defragOuterFix : List Nat → List (Slot Nat) → List (Slot Nat)
  | [], st => st
  | i :: rest, st =>
    match st[i]? with
    | some sl =>
      if sl.isHole then
        defragOuterFix rest (defragInnerFix i ((List.range st.length).reverse) st)
      else defragOuterFix rest st
    | none => defragOuterFix rest st

/-- `SparseStorage::defragment_and_fix` over the index-tracking test
elements. -/
def SparseStorage.defragmentAndFixTrack (s : SparseStorage Nat) : SparseStorage Nat :=
  match s.holeList with
  | none => s
  | some (c, _, _) =>
    let st := defragOuterFix (List.range s.storage.length) s.storage
    ⟨st.take (st.length - min st.length c), none⟩

/-- Boolean free-list tail sanity: when the free list is present its tail
index points at a hole slot inside the backing list.  This is part of the
free-list invariant of every reachable sparse storage (`hole_list` "must not
point to non-holes"). -/
def holeTailOk {E : Type} (s : SparseStorage E) : Bool :=
  match s.holeList with
  | none => true
  | some (_, _, t) =>
    match s.storage[t]? with
    | some sl => sl.isHole
    | none => false

/-- Segmented chain storage (src/list/chain/mod.rs, struct `Chain`): the
outer list of buffer lists, the cached total length, and the `(limit,
allocate_to_limit)` configuration.  The source packs the latter two into a
`UsizeAndFlag` word (limit even, flag in the low bit); that is memory
layout only and they are modelled as two fields.  Buffer capacities are not
part of the model, so `allocate_to_limit` influences nothing here. -/
structure Chain (T : Type) where
  contents : List (List T)
  len : Nat
  limit : Nat
  allocToLimit : Bool
deriving DecidableEq

/-- A fresh chain (`Chain::new`, whose `DEFAULT_LIMIT` depends on
`size_of::<T>`, followed by `set_limit`/`allocate_to_limit` to reach the
given configuration): no buffers, zero length. -/
def mkChain (T : Type) (limit : Nat) (altl : Bool) : Chain T := ⟨[], 0, limit, altl⟩

namespace Chain

variable {T : Type}

/-- `ListStorage::push` for `Chain`: append to the last buffer while its
length is below the limit, otherwise start a new buffer (`push_storage`
pre-sizes it to the limit or leaves it empty depending on
`allocate_to_limit`, which is a capacity-only difference) and push there;
the cached length is incremented. -/
def push (c : Chain T) (x : T) : Chain T :=
  match c.contents.getLast? with
  | some last =>
    if last.length < c.limit then
      ⟨c.contents.set (c.contents.length - 1) (last ++ [x]), c.len + 1, c.limit, c.allocToLimit⟩
    else ⟨c.contents ++ [[x]], c.len + 1, c.limit, c.allocToLimit⟩
  | none => ⟨c.contents ++ [[x]], c.len + 1, c.limit, c.allocToLimit⟩

/-- `ListStorage::pop` for `Chain`: pop the *last buffer* (`last_mut`),
decrementing the cached length only when that buffer yielded a value. -/
def pop (c : Chain T) : Option (T × Chain T) :=
  match c.contents.getLast? with
  | some last =>
    match last.getLast? with
    | some v =>
      some (v, ⟨c.contents.set (c.contents.length - 1) last.dropLast,
        c.len - 1, c.limit, c.allocToLimit⟩)
    | none => none
  | none => none

end Chain

/-- The global-to-local index translation scan of `Chain::insert`: find the
buffer where the running index underflows (`index < st.len()`) and insert
there; `none` models the out-of-bounds panic after all buffers are
exhausted. -/
def insertGo {T : Type} (x : T) : List (List T) → Nat → Option (List (List T))
  | [], _ => none
  | st :: rest, index =>
    if index < st.length then some (st.insertIdx index x :: rest)
    else
      match insertGo x rest (index - st.length) with
      | some rest' => some (st :: rest')
      | none => none

/-- The translation scan of `Chain::remove` (also used by `shrink_to_fit`
through `self.remove(0)`): remove from the owning buffer, shifting only
inside it. -/
def removeGo {T : Type} : List (List T) → Nat → Option (T × List (List T))
  | [], _ => none
  | st :: rest, index =>
    match st[index]? with
    | some v => some (v, st.eraseIdx index :: rest)
    | none =>
      match removeGo rest (index - st.length) with
      | some (v, rest') => some (v, st :: rest')
      | none => none

/-- The translation scan of `Chain::get`/`get_mut`: `none` past the last
buffer (the source's `get` returns `Option`, it does not panic). -/
def getGo {T : Type} : List (List T) → Nat → Option T
  | [], _ => none
  | st :: rest, index =>
    match st[index]? with
    | some v => some v
    | none => getGo rest (index - st.length)

/-- The translation scan of `Chain::truncate`: truncate the owning buffer
and return immediately — later buffers are left untouched and nothing
happens when the requested length spans all buffers. -/
def truncGo {T : Type} : List (List T) → Nat → List (List T)
  | [], _ => []
  | st :: rest, n =>
    if n < st.length then (st.take n) :: rest
    else st :: truncGo rest (n - st.length)

namespace Chain

variable {T : Type}

/-- `ListStorage::insert` for `Chain`: translation scan, incrementing the
cached length on success, panicking (out of bounds) otherwise.  Note the
scan requires `index` to fall strictly inside some buffer, so inserting at
`index = len()` panics too. -/
def insertE (c : Chain T) (index : Nat) (x : T) : Except (String × Chain T) (Chain T) :=
  match insertGo x c.contents index with
  | some bufs => .ok ⟨bufs, c.len + 1, c.limit, c.allocToLimit⟩
  | none => .error (oobMsg, c)

/-- `ListStorage::remove` for `Chain`: translation scan, decrementing the
cached length on success. -/
def removeE (c : Chain T) (index : Nat) : Except (String × Chain T) (T × Chain T) :=
  match removeGo c.contents index with
  | some (v, bufs) => .ok (v, ⟨bufs, c.len - 1, c.limit, c.allocToLimit⟩)
  | none => .error (oobMsg, c)

/-- `ListStorage::get` for `Chain`. -/
def get (c : Chain T) (index : Nat) : Option T := getGo c.contents index

/-- `ListStorage::get_mut` for `Chain`: the same scan over `iter_mut`;
modelled by which index is reachable. -/
def getMut (c : Chain T) (index : Nat) : Option T := getGo c.contents index

/-- `ListStorage::truncate` for `Chain`: the translation scan only — the
source never updates the cached `len` field here. -/
def truncate (c : Chain T) (n : Nat) : Chain T :=
  ⟨truncGo c.contents n, c.len, c.limit, c.allocToLimit⟩

/-- `ListStorage::insert_and_shiftfix` for `Chain` over `DummyMoveFix`
elements (whose hooks do nothing): delegate to the owning buffer — and the
source never updates the cached `len` field here. -/
def insertShiftfixD (c : Chain T) (index : Nat) (x : T) : Except (String × Chain T) (Chain T) :=
  match insertGo x c.contents index with
  | some bufs => .ok ⟨bufs, c.len, c.limit, c.allocToLimit⟩
  | none => .error (oobMsg, c)

/-- `ListStorage::remove_and_shiftfix` for `Chain` over `DummyMoveFix`
elements: delegate to the owning buffer — and the source never updates the
cached `len` field here. -/
def removeShiftfixD (c : Chain T) (index : Nat) : Except (String × Chain T) (T × Chain T) :=
  match removeGo c.contents index with
  | some (v, bufs) => .ok (v, ⟨bufs, c.len, c.limit, c.allocToLimit⟩)
  | none => .error (oobMsg, c)

/-- The `while i < j` loop of `Chain::shrink_to_fit`: on an empty buffer at
position `i` the source calls `self.remove(0)` — the `ListStorage::remove`
of the *chain*, i.e. it removes the chain's first element, not the buffer —
and decrements `j`; on a non-empty buffer it shrinks its capacity (a no-op
here) and advances `i`.  `j - i` strictly decreases each iteration, so the
structural fuel (initialised to `j - i`'s starting value by the wrapper) is
never exhausted. -/
def shrinkGo : Nat → Chain T → Nat → Nat → Except (String × Chain T) (Chain T)
  | 0, c, _, _ => .ok c
  | fuel + 1, c, i, j =>
    if i < j then
      match c.contents[i]? with
      | some st =>
        if st.length = 0 then
          match c.removeE 0 with
          | .ok (_, c') => shrinkGo fuel c' i (j - 1)
          | .error e => .error e
        else shrinkGo fuel c (i + 1) j
      | none => .ok c
    else .ok c

/-- `ListStorage::shrink_to_fit` for `Chain`: run the loop with `i = 0`,
`j = contents.len()`. -/
def shrinkToFit (c : Chain T) : Except (String × Chain T) (Chain T) :=
  shrinkGo c.contents.length c 0 c.contents.length

/-- Push a whole list of values, in order. -/
def pushAll (c : Chain T) (xs : List T) : Chain T := xs.foldl push c

/-- Whether the last buffer exists and is non-empty — the exact condition
under which `Chain::pop` yields a value. -/
def lastBufNonempty (c : Chain T) : Bool :=
  match c.contents.getLast? with
  | some b => !b.isEmpty
  | none => false

end Chain

/-- Total number of elements actually stored in the buffers of a chain
(as opposed to the cached `len` field). -/
def sumLens {T : Type} (bufs : List (List T)) : Nat := (bufs.map List.length).sum

end Granite

namespace Granite

/-! Concrete run of the documented sparse-storage scenario (spec §8):
`add(10); add(20); add(30); remove_and_shiftfix(1); get(1); add(25)`. -/

/-- Empty sparse storage over `Nat` elements (`SparseVec::new`). -/
def c2s0 : SparseStorage Nat := ⟨[], none⟩

/-- State after `add(10)`. -/
def c2s1 : SparseStorage Nat := (c2s0.add 10).2

/-- State after `add(20)`. -/
def c2s2 : SparseStorage Nat := (c2s1.add 20).2

/-- State after `add(30)`. -/
def c2s3 : SparseStorage Nat := (c2s2.add 30).2

/-- State after `remove_and_shiftfix(1)`. -/
def c2s4 : SparseStorage Nat :=
  match c2s3.removeAndShiftfix 1 with
  | .ok (_, s) => s
  | .error (_, s) => s

/-- The chain of spec §8: limit 4, ten pushed values `0..9`. -/
def c7chain : Chain Nat := Chain.pushAll (mkChain Nat 4 true) (List.range 10)

/-- A chain with limit 4 holding a single pushed element. -/
def c3chain : Chain Nat := (mkChain Nat 4 true).push 7

/-- A chain with limit 2 holding three pushed elements: buffers `[1,2],[3]`. -/
def c9chain : Chain Nat := Chain.pushAll (mkChain Nat 2 true) [1, 2, 3]

/-- The state after `remove(2)` on [`c9chain`]: buffers `[1,2],[]` — the
last buffer is empty while the chain still holds two elements. -/
def c9after : Chain Nat := ⟨[[1, 2], []], 2, 2, true⟩

/-- C2: on an empty sparse storage, `add(10); add(20); add(30)` returns keys
`0, 1, 2`; `remove_and_shiftfix(1)` returns `20` leaving `len() = 3` and
`num_holes() = 1`; `get(1)` then panics on the hole; `add(25)` reuses key `1`
and brings `num_holes()` back to `0`. -/
theorem c2_sparse_scenario :
    (c2s0.add 10).1 = 0 ∧ (c2s1.add 20).1 = 1 ∧ (c2s2.add 30).1 = 2 ∧
    c2s3.removeAndShiftfix 1 = .ok (20, c2s4) ∧
    c2s4.len = 3 ∧ c2s4.numHoles = 1 ∧
    c2s4.getE 1 = .error holeMsg ∧
    (c2s4.add 25).1 = 1 ∧ (c2s4.add 25).2.numHoles = 0 :=
  ⟨rfl, rfl, rfl, rfl, rfl, rfl, rfl, rfl, rfl⟩

/-- C1: on any sparse storage whose free-list tail is sound, removing an
element slot `i` with `remove_and_shiftfix` returns that element, turns slot
`i` (and only slot `i`) into a hole, keeps every other element slot intact
with its value, keeps `len()` unchanged, and increments the hole count. -/
theorem c1_remove_and_shiftfix_frame {E : Type} (s : SparseStorage E) (i : Nat) (e : E)
    (hwf : holeTailOk s = true) (hi : s.storage[i]? = some (.element e)) :
    ∃ s', s.removeAndShiftfix i = .ok (e, s') ∧
      s'.len = s.len ∧
      s'.storage[i]? = some (.hole none) ∧
      (∀ j, j ≠ i → ∀ e', s.storage[j]? = some (.element e') →
        s'.storage[j]? = some (.element e')) ∧
      (∀ j, j ≠ i → (s'.storage[j]?).map Slot.isElement = (s.storage[j]?).map Slot.isElement) ∧
      s'.numHoles = s.numHoles + 1 := by
  have hlt : i < s.storage.length := by
    rcases List.getElem?_eq_some_iff.1 hi with ⟨h, _⟩
    exact h
  have hnle : ¬ s.len ≤ i := by
    simp only [SparseStorage.len]
    omega
  rcases s with ⟨st, hl⟩
  simp only [SparseStorage.removeAndShiftfix, SparseStorage.punchHole, hi, Slot.punchHole,
    if_neg hnle]
  match hl with
  | none =>
    refine ⟨⟨st.set i (.hole none), some (1, i, i)⟩, rfl, ?_, ?_, ?_, ?_, rfl⟩
    · simp [SparseStorage.len]
    · exact List.getElem?_set_self hlt
    · intro j hj e' hje
      rw [List.getElem?_set_ne (fun h => hj h.symm), hje]
    · intro j hj
      rw [List.getElem?_set_ne (fun h => hj h.symm)]
  | some (c, h, t) =>
    have htl : ∃ l, st[t]? = some (.hole l) := by
      simp only [holeTailOk] at hwf
      match hmt : st[t]? with
      | some sl =>
        rw [hmt] at hwf
        match sl with
        | .hole l => exact ⟨l, rfl⟩
        | .element _ => simp [Slot.isHole] at hwf
      | none => rw [hmt] at hwf; exact absurd hwf (by simp)
    rcases htl with ⟨l, htl⟩
    have hti : t ≠ i := by
      intro hEq
      rw [hEq, hi] at htl
      exact Slot.noConfusion (Option.some.inj htl)
    have hst1t : (st.set i (.hole none))[t]? = some (.hole l) := by
      rw [List.getElem?_set_ne (fun hh => hti hh.symm), htl]
    simp only [hst1t, Slot.setHoleLink]
    refine ⟨_, rfl, ?_, ?_, ?_, ?_, rfl⟩
    · simp [SparseStorage.len]
    · rw [List.getElem?_set_ne hti, List.getElem?_set_self hlt]
    · intro j hj e' hje
      by_cases hjt : j = t
      · rw [hjt, htl] at hje
        exact absurd (Option.some.inj hje) (fun hh => Slot.noConfusion hh)
      · rw [List.getElem?_set_ne (fun hh => hjt hh.symm),
          List.getElem?_set_ne (fun hh => hj hh.symm), hje]
    · intro j hj
      by_cases hjt : j = t
      · subst hjt
        rw [List.getElem?_set_self (by simpa using List.getElem?_eq_some_iff.1 hst1t |>.1), htl]
        rfl
      · rw [List.getElem?_set_ne (fun hh => hjt hh.symm),
          List.getElem?_set_ne (fun hh => hj hh.symm)]

/-- Witness for C1 at a concrete storage: two slots, slot `0` an element,
slot `1` the single hole of the free list. -/
theorem c1_witness :
    (holeTailOk (⟨[Slot.element 5, Slot.hole none], some (1, 1, 1)⟩ : SparseStorage Nat) = true ∧
      (⟨[Slot.element 5, Slot.hole none], some (1, 1, 1)⟩ : SparseStorage Nat).storage[0]? =
        some (.element 5)) ∧
    (∃ s', (⟨[Slot.element 5, Slot.hole none], some (1, 1, 1)⟩ :
        SparseStorage Nat).removeAndShiftfix 0 = .ok (5, s') ∧
      s'.len = (⟨[Slot.element 5, Slot.hole none], some (1, 1, 1)⟩ : SparseStorage Nat).len ∧
      s'.storage[0]? = some (.hole none) ∧
      (∀ j, j ≠ 0 → ∀ e', (⟨[Slot.element 5, Slot.hole none], some (1, 1, 1)⟩ :
          SparseStorage Nat).storage[j]? = some (.element e') →
        s'.storage[j]? = some (.element e')) ∧
      (∀ j, j ≠ 0 → (s'.storage[j]?).map Slot.isElement =
        ((⟨[Slot.element 5, Slot.hole none], some (1, 1, 1)⟩ :
          SparseStorage Nat).storage[j]?).map Slot.isElement) ∧
      s'.numHoles = (⟨[Slot.element 5, Slot.hole none], some (1, 1, 1)⟩ :
        SparseStorage Nat).numHoles + 1) :=
  ⟨⟨rfl, rfl⟩, c1_remove_and_shiftfix_frame _ 0 5 rfl rfl⟩

/-- C6: raw `remove`/`pop` on a sparse storage with holes fail for every
argument with the `unimplemented!` panic, carrying the unmodified storage
(nothing observable is mutated); on a dense storage they are ordinary
shifting removal / tail pop of the backing list. -/
theorem c6_raw_removal_guard {E : Type} (s : SparseStorage E) (i : Nat) :
    (0 < s.numHoles →
      s.removeSparse i = .error (rawRemovalMsg, s) ∧
      s.popSparse = .error (rawRemovalMsg, s)) ∧
    (s.numHoles = 0 →
      (∀ e, s.storage[i]? = some (.element e) →
        s.removeSparse i = .ok (e, ⟨s.storage.eraseIdx i, s.holeList⟩)) ∧
      (s.storage.length ≤ i → s.removeSparse i = .error (oobMsg, s)) ∧
      (∀ e, s.storage.getLast? = some (.element e) →
        s.popSparse = .ok (some e, ⟨s.storage.dropLast, s.holeList⟩)) ∧
      (s.storage = [] → s.popSparse = .ok (none, s))) := by
  constructor
  · intro hpos
    have hnd : s.isDense = false := by
      simp only [SparseStorage.isDense, beq_eq_false_iff_ne, ne_eq]
      omega
    constructor
    · simp only [SparseStorage.removeSparse, hnd, Bool.false_eq_true, if_false]
    · simp only [SparseStorage.popSparse, hnd, Bool.false_eq_true, if_false]
  · intro hz
    have hd : s.isDense = true := by
      simp only [SparseStorage.isDense, beq_iff_eq, hz]
    refine ⟨?_, ?_, ?_, ?_⟩
    · intro e he
      simp only [SparseStorage.removeSparse, hd, if_true, he, Slot.element?]
    · intro hge
      have : s.storage[i]? = none := List.getElem?_eq_none hge
      simp only [SparseStorage.removeSparse, hd, if_true, this]
    · intro e he
      simp only [SparseStorage.popSparse, hd, if_true, he, Slot.element?]
    · intro he
      simp only [SparseStorage.popSparse, hd, if_true, he, List.getLast?_nil]

/-- Witness for C6 at concrete storages: a one-hole storage rejects raw
removal and pop unchanged, and a dense one-element storage removes
normally. -/
theorem c6_witness :
    (0 < (⟨[Slot.hole none], some (1, 0, 0)⟩ : SparseStorage Nat).numHoles ∧
      ((⟨[Slot.hole none], some (1, 0, 0)⟩ : SparseStorage Nat).removeSparse 2 =
        .error (rawRemovalMsg, ⟨[Slot.hole none], some (1, 0, 0)⟩) ∧
       (⟨[Slot.hole none], some (1, 0, 0)⟩ : SparseStorage Nat).popSparse =
        .error (rawRemovalMsg, ⟨[Slot.hole none], some (1, 0, 0)⟩))) ∧
    ((⟨[Slot.element 3], none⟩ : SparseStorage Nat).numHoles = 0 ∧
      (⟨[Slot.element 3], none⟩ : SparseStorage Nat).removeSparse 0 =
        .ok (3, ⟨[], none⟩)) :=
  ⟨⟨by decide, (c6_raw_removal_guard (⟨[Slot.hole none], some (1, 0, 0)⟩ : SparseStorage Nat) 2).1
      (by decide)⟩,
   ⟨rfl, ((c6_raw_removal_guard (⟨[Slot.element 3], none⟩ : SparseStorage Nat) 0).2 rfl).1 3 rfl⟩⟩

theorem listSwap_length {α : Type} (l : List α) (i j : Nat) :
    (listSwap l i j).length = l.length := by
  unfold listSwap
  split
  · simp
  · rfl

theorem listSwap_getElem?_other {α : Type} (l : List α) {i j p : Nat}
    (hpi : p ≠ i) (hpj : p ≠ j) : (listSwap l i j)[p]? = l[p]? := by
  unfold listSwap
  split
  · rw [List.getElem?_set_ne (Ne.symm hpj), List.getElem?_set_ne (Ne.symm hpi)]
  · rfl

theorem listSwap_getElem?_left {α : Type} {l : List α} {i j : Nat} (hij : i ≠ j) {a b : α}
    (ha : l[i]? = some a) (hb : l[j]? = some b) : (listSwap l i j)[i]? = some b := by
  have hlt : i < l.length := (List.getElem?_eq_some_iff.1 ha).1
  unfold listSwap
  rw [ha, hb]
  rw [List.getElem?_set_ne (Ne.symm hij), List.getElem?_set_self hlt]

theorem consSetPerm {α : Type} : ∀ (xs : List α) (k : Nat) (x b : α),
    xs[k]? = some b → List.Perm (b :: xs.set k x) (x :: xs) := by
  intro xs
  induction xs with
  | nil => intro k x b h; simp at h
  | cons y ys ih =>
    intro k x b h
    match k with
    | 0 =>
      simp only [List.getElem?_cons_zero, Option.some.injEq] at h
      subst h
      exact List.Perm.swap x y ys
    | k + 1 =>
      simp only [List.getElem?_cons_succ] at h
      exact ((List.Perm.swap y b _).trans (((ih k x b h).cons y).trans (List.Perm.swap x y ys)))

theorem listSwap_perm {α : Type} : ∀ (l : List α) (i j : Nat), i ≠ j →
    List.Perm (listSwap l i j) l := by
  intro l
  induction l with
  | nil => intro i j _; simp [listSwap]
  | cons x xs ih =>
    intro i j hij
    match i, j with
    | 0, 0 => exact absurd rfl hij
    | 0, jj + 1 =>
      unfold listSwap
      cases hj : xs[jj]? with
      | none => simp [hj]
      | some b =>
        simp only [List.getElem?_cons_zero, List.getElem?_cons_succ, hj]
        exact consSetPerm xs jj x b hj
    | ii + 1, 0 =>
      unfold listSwap
      cases hi : xs[ii]? with
      | none => simp [hi]
      | some a =>
        simp only [List.getElem?_cons_zero, List.getElem?_cons_succ, hi]
        exact consSetPerm xs ii x a hi
    | ii + 1, jj + 1 =>
      have hij' : ii ≠ jj := fun hh => hij (by rw [hh])
      unfold listSwap
      simp only [List.getElem?_cons_succ]
      cases hi : xs[ii]? with
      | none => simp [hi]
      | some a =>
        cases hj : xs[jj]? with
        | none => simp [hi, hj]
        | some b =>
          simp only [hi, hj]
          have h2 : listSwap xs ii jj = (xs.set ii b).set jj a := by
            unfold listSwap
            rw [hi, hj]
          exact (h2 ▸ ih ii jj hij').cons x

theorem defragInner_length {E : Type} (i : Nat) : ∀ (js : List Nat) (st : List (Slot E)),
    (defragInner i js st).length = st.length := by
  intro js
  induction js with
  | nil => intro st; rfl
  | cons j js ih =>
    intro st
    unfold defragInner
    by_cases hj : j = i
    · simp [hj]
    · simp only [if_neg hj]
      cases hsl : st[j]? with
      | none => exact ih st
      | some sl =>
        by_cases he : sl.isElement = true
        · simp only [he, if_true]
          rw [ih (listSwap st i j), listSwap_length]
        · simp only [he, if_false]
          exact ih st

theorem defragInner_perm {E : Type} (i : Nat) : ∀ (js : List Nat) (st : List (Slot E)),
    (∀ j ∈ js, j ≠ i) → List.Perm (defragInner i js st) st := by
  intro js
  induction js with
  | nil => intro st _; exact List.Perm.refl _
  | cons j js ih =>
    intro st hmem
    have hji : j ≠ i := hmem j (List.mem_cons_self j js)
    have hmem' : ∀ j' ∈ js, j' ≠ i := fun j' hj' => hmem j' (List.mem_cons_of_mem j hj')
    unfold defragInner
    simp only [if_neg hji]
    cases hsl : st[j]? with
    | none => exact ih st hmem'
    | some sl =>
      by_cases he : sl.isElement = true
      · simp only [he, if_true]
        exact (ih (listSwap st i j) hmem').trans (listSwap_perm st i j (fun hh => hji hh.symm))
      · simp only [he, if_false]
        exact ih st hmem'

theorem defragInner_prefix {E : Type} (i : Nat) : ∀ (js : List Nat) (st : List (Slot E)) (p : Nat),
    (∀ j ∈ js, j ≠ p) → p ≠ i → (defragInner i js st)[p]? = st[p]? := by
  intro js
  induction js with
  | nil => intro st p _ _; rfl
  | cons j js ih =>
    intro st p hmem hpi
    have hmem' : ∀ j' ∈ js, j' ≠ p := fun j' hj' => hmem j' (List.mem_cons_of_mem j hj')
    unfold defragInner
    by_cases hji : j = i
    · simp [hji]
    · simp only [if_neg hji]
      cases hsl : st[j]? with
      | none => exact ih st p hmem' hpi
      | some sl =>
        by_cases he : sl.isElement = true
        · simp only [he, if_true]
          rw [ih (listSwap st i j) p hmem' hpi,
            listSwap_getElem?_other st hpi (Ne.symm (hmem j (List.mem_cons_self j js)))]
        · simp only [he, if_false]
          exact ih st p hmem' hpi

theorem defragInner_noElem {E : Type} (i : Nat) : ∀ (js : List Nat) (st : List (Slot E)),
    (∀ j ∈ js, elemAtB st j = false) → defragInner i js st = st := by
  intro js
  induction js with
  | nil => intro st _; rfl
  | cons j js ih =>
    intro st hmem
    have hmem' : ∀ j' ∈ js, elemAtB st j' = false :=
      fun j' hj' => hmem j' (List.mem_cons_of_mem j hj')
    have hj : elemAtB st j = false := hmem j (List.mem_cons_self j js)
    unfold defragInner
    by_cases hji : j = i
    · simp [hji]
    · simp only [if_neg hji]
      cases hsl : st[j]? with
      | none => exact ih st hmem'
      | some sl =>
        have he : sl.isElement = false := by
          simp only [elemAtB, hsl] at hj
          exact hj
        simp only [he, Bool.false_eq_true, if_false]
        exact ih st hmem'

theorem defragInner_elemStays {E : Type} (i : Nat) : ∀ (js : List Nat) (st : List (Slot E)),
    (∀ j ∈ js, j ≠ i) → elemAtB st i = true → elemAtB (defragInner i js st) i = true := by
  intro js
  induction js with
  | nil => intro st _ hi; exact hi
  | cons j js ih =>
    intro st hmem hi
    have hji : j ≠ i := hmem j (List.mem_cons_self j js)
    have hmem' : ∀ j' ∈ js, j' ≠ i := fun j' hj' => hmem j' (List.mem_cons_of_mem j hj')
    unfold defragInner
    simp only [if_neg hji]
    cases hsl : st[j]? with
    | none => exact ih st hmem' hi
    | some sl =>
      by_cases he : sl.isElement = true
      · simp only [he, if_true]
        refine ih (listSwap st i j) hmem' ?_
        obtain ⟨a, ha⟩ : ∃ a, st[i]? = some a := by
          simp only [elemAtB] at hi
          cases hia : st[i]? with
          | none => rw [hia] at hi; exact absurd hi (by simp)
          | some a => exact ⟨a, rfl⟩
        simp only [elemAtB, listSwap_getElem?_left (fun hh => hji hh.symm) ha hsl]
        exact he
      · simp only [he, if_false]
        exact ih st hmem' hi

theorem defragInner_findsElem {E : Type} (i : Nat) : ∀ (js : List Nat) (st : List (Slot E)),
    (∀ j ∈ js, j ≠ i) → (∃ j ∈ js, elemAtB st j = true) → i < st.length →
    elemAtB (defragInner i js st) i = true := by
  intro js
  induction js with
  | nil => intro st _ hex _; rcases hex with ⟨j, hj, _⟩; exact absurd hj (List.not_mem_nil j)
  | cons j js ih =>
    intro st hmem hex hlt
    have hji : j ≠ i := hmem j (List.mem_cons_self j js)
    have hmem' : ∀ j' ∈ js, j' ≠ i := fun j' hj' => hmem j' (List.mem_cons_of_mem j hj')
    unfold defragInner
    simp only [if_neg hji]
    cases hsl : st[j]? with
    | none =>
      refine ih st hmem' ?_ hlt
      rcases hex with ⟨j', hj', he'⟩
      rcases List.mem_cons.1 hj' with hj'' | hj''
      · subst hj''
        simp [elemAtB, hsl] at he'
      · exact ⟨j', hj'', he'⟩
    | some sl =>
      by_cases he : sl.isElement = true
      · simp only [he, if_true]
        refine defragInner_elemStays i js (listSwap st i j) hmem' ?_
        have ha : st[i]? = some st[i] := List.getElem?_eq_getElem hlt
        simp only [elemAtB, listSwap_getElem?_left (fun hh => hji hh.symm) ha hsl]
        exact he
      · simp only [he, if_false]
        refine ih st hmem' ?_ hlt
        rcases hex with ⟨j', hj', he'⟩
        rcases List.mem_cons.1 hj' with hj'' | hj''
        · subst hj''
          rw [show elemAtB st j' = sl.isElement by simp [elemAtB, hsl]] at he'
          exact absurd he' he
        · exact ⟨j', hj'', he'⟩

theorem defragInner_eq_takeWhile {E : Type} (i : Nat) : ∀ (js : List Nat) (st : List (Slot E)),
    defragInner i js st = defragInner i (js.takeWhile (fun j => j != i)) st := by
  intro js
  induction js with
  | nil => intro st; rfl
  | cons j js ih =>
    intro st
    by_cases hji : j = i
    · rw [List.takeWhile_cons_of_neg (by simp [hji])]
      unfold defragInner
      simp [hji]
    · rw [List.takeWhile_cons_of_pos (by simp [hji])]
      unfold defragInner
      simp only [if_neg hji]
      cases hsl : st[j]? with
      | none => exact ih st
      | some sl =>
        by_cases he : sl.isElement = true
        · simp only [he, if_true]
          exact ih (listSwap st i j)
        · simp only [he, if_false]
          exact ih st

theorem rangeRevTakeWhile (L i : Nat) (h : i < L) :
    (List.range L).reverse.takeWhile (fun j => j != i) =
      (List.range' (i + 1) (L - i - 1)).reverse := by
  have happ := List.range'_append_1 0 (i + 1) (L - i - 1)
  rw [Nat.zero_add] at happ
  have hsplit : List.range L = List.range' 0 (i + 1) ++ List.range' (i + 1) (L - i - 1) :=
    calc List.range L = List.range' 0 L := List.range_eq_range' L
      _ = List.range' 0 (L - i - 1 + (i + 1)) := by congr 1; omega
      _ = List.range' 0 (i + 1) ++ List.range' (i + 1) (L - i - 1) := happ.symm
  rw [hsplit, List.reverse_append]
  rw [List.takeWhile_append_of_pos
    (by
      intro a ha
      rw [List.mem_reverse, List.mem_range'_1] at ha
      simp only [bne_iff_ne, ne_eq]
      omega)]
  have hconcat : List.range' 0 (i + 1) = List.range' 0 i ++ [i] := by
    have := List.range'_1_concat 0 i
    simpa using this
  rw [hconcat, List.reverse_append]
  simp only [List.reverse_cons, List.reverse_nil, List.nil_append, List.singleton_append]
  rw [List.takeWhile_cons_of_neg (by simp)]
  simp

theorem memRangeRev {L i j : Nat} (h : i < L)
    (hj : j ∈ (List.range' (i + 1) (L - i - 1)).reverse) : i < j ∧ j < L := by
  rw [List.mem_reverse, List.mem_range'_1] at hj
  omega

theorem memRangeRev' {L i j : Nat} (hij : i < j) (hjL : j < L) :
    j ∈ (List.range' (i + 1) (L - i - 1)).reverse := by
  rw [List.mem_reverse, List.mem_range'_1]
  omega

theorem slotDichot {E : Type} (st : List (Slot E)) {q : Nat} (h : q < st.length) :
    holeAtB st q = !elemAtB st q := by
  have hq : st[q]? = some st[q] := List.getElem?_eq_getElem h
  simp only [holeAtB, elemAtB, hq]
  cases st[q] <;> rfl

theorem defragOuter_spec {E : Type} : ∀ (n i : Nat) (st : List (Slot E)),
    i + n = st.length → HolesClosed st i →
    (defragOuter (List.range' i n) st).length = st.length ∧
    List.Perm (defragOuter (List.range' i n) st) st ∧
    HolesClosed (defragOuter (List.range' i n) st) st.length := by
  intro n
  induction n with
  | zero =>
    intro i st hlen hinv
    exact ⟨rfl, List.Perm.refl _, (by omega : i = st.length) ▸ hinv⟩
  | succ n ih =>
    intro i st hlen hinv
    rw [List.range'_succ]
    have hiL : i < st.length := by omega
    have hsome : st[i]? = some st[i] := List.getElem?_eq_getElem hiL
    simp only [defragOuter, hsome]
    by_cases hh : (st[i]).isHole = true
    · rw [if_pos hh]
      have hjs : defragInner i ((List.range st.length).reverse) st
          = defragInner i ((List.range' (i + 1) (st.length - i - 1)).reverse) st := by
        rw [defragInner_eq_takeWhile, rangeRevTakeWhile st.length i hiL]
      rw [hjs]
      generalize hst2 : defragInner i ((List.range' (i + 1) (st.length - i - 1)).reverse) st = st2
      have hmemNe : ∀ j ∈ (List.range' (i + 1) (st.length - i - 1)).reverse, j ≠ i := by
        intro j hj
        have := memRangeRev hiL hj
        omega
      have hlen2 : st2.length = st.length := by
        rw [← hst2]
        exact defragInner_length i ((List.range' (i + 1) (st.length - i - 1)).reverse) st
      have hperm2 : List.Perm st2 st := by
        rw [← hst2]
        exact defragInner_perm i _ st hmemNe
      have hpre : (¬ ∃ p, p < i ∧ holeAtB st p = true) → ∀ p, p < i → holeAtB st p = false := by
        intro hEx p hp
        cases hval : holeAtB st p with
        | false => rfl
        | true => exact absurd ⟨p, hp, hval⟩ hEx
      have hclosed2 : HolesClosed st2 (i + 1) := by
        by_cases hEx : ∃ p, p < i ∧ holeAtB st p = true
        · rcases hEx with ⟨p, hpi, hph⟩
          have hall : ∀ q, p ≤ q → q < st.length → holeAtB st q = true := hinv p hpi hph
          have hnoel : ∀ j ∈ (List.range' (i + 1) (st.length - i - 1)).reverse,
              elemAtB st j = false := by
            intro j hj
            have hm := memRangeRev hiL hj
            have hhole := hall j (by omega) hm.2
            rw [slotDichot st hm.2] at hhole
            cases hval : elemAtB st j with
            | false => rfl
            | true => rw [hval] at hhole; exact absurd hhole (by simp)
          have hid : st2 = st := by
            rw [← hst2]
            exact defragInner_noElem i _ st hnoel
          rw [hid]
          intro p' hp' hp'h q hq hqL
          by_cases hp'i : p' < i
          · exact hinv p' hp'i hp'h q hq hqL
          · have hpe : p' = i := by omega
            subst hpe
            exact hall q (by omega) hqL
        · have hpre' := hpre hEx
          by_cases hEl : ∃ j ∈ (List.range' (i + 1) (st.length - i - 1)).reverse,
              elemAtB st j = true
          · have hel2 : elemAtB st2 i = true := by
              rw [← hst2]
              exact defragInner_findsElem i _ st hmemNe hEl hiL
            have hpre2 : ∀ p, p < i → st2[p]? = st[p]? := by
              intro p hp
              rw [← hst2]
              exact defragInner_prefix i _ st p
                (fun j hj => by have := memRangeRev hiL hj; omega) (by omega)
            intro p' hp' hp'h q hq hqL
            exfalso
            by_cases hp'i : p' < i
            · have heq : holeAtB st2 p' = holeAtB st p' := by
                simp only [holeAtB, hpre2 p' hp'i]
              rw [heq, hpre' p' hp'i] at hp'h
              exact absurd hp'h (by simp)
            · have hpe : p' = i := by omega
              subst hpe
              rw [slotDichot st2 (by rw [hlen2]; exact hiL), hel2] at hp'h
              exact absurd hp'h (by simp)
          · have hnoel : ∀ j ∈ (List.range' (i + 1) (st.length - i - 1)).reverse,
                elemAtB st j = false := by
              intro j hj
              cases hval : elemAtB st j with
              | false => rfl
              | true => exact absurd ⟨j, hj, hval⟩ hEl
            have hid : st2 = st := by
              rw [← hst2]
              exact defragInner_noElem i _ st hnoel
            rw [hid]
            intro p' hp' hp'h q hq hqL
            have hp'i : p' = i := by
              by_contra hne
              have hlt : p' < i := by omega
              rw [hpre' p' hlt] at hp'h
              exact absurd hp'h (by simp)
            subst hp'i
            by_cases hqi : q = p'
            · subst hqi
              simpa [holeAtB, hsome] using hh
            · have hq2 : p' < q := by omega
              have hjmem : q ∈ (List.range' (p' + 1) (st.length - p' - 1)).reverse :=
                memRangeRev' hq2 hqL
              have hqe := hnoel q hjmem
              rw [slotDichot st hqL, hqe]
              rfl
      have hlen' : (i + 1) + n = st2.length := by rw [hlen2]; omega
      obtain ⟨l1, p1, c1⟩ := ih (i + 1) st2 hlen' hclosed2
      refine ⟨by rw [l1, hlen2], p1.trans hperm2, ?_⟩
      rw [hlen2] at c1
      exact c1
    · rw [if_neg hh]
      have hclosed' : HolesClosed st (i + 1) := by
        intro p hp hph q hq hqL
        by_cases hpi : p < i
        · exact hinv p hpi hph q hq hqL
        · have hpe : p = i := by omega
          subst hpe
          have : holeAtB st p = (st[p]).isHole := by simp [holeAtB, hsome]
          rw [this] at hph
          exact absurd hph hh
      exact ih (i + 1) st (by omega) hclosed'

theorem holesClosedPartition {E : Type} (st : List (Slot E))
    (hclosed : HolesClosed st st.length) (q : Nat) (hq : q < st.length) :
    (q < st.length - countHoles st → elemAtB st q = true) ∧
    (st.length - countHoles st ≤ q → holeAtB st q = true) := by
  by_cases hc : countHoles st = 0
  · constructor
    · intro _
      have hmem : ∀ a ∈ st, Slot.isHole a = false := by
        intro a ha
        have hna := List.countP_eq_zero.1 hc a ha
        cases hval : a.isHole with
        | false => rfl
        | true => exact absurd hval hna
      have hsq : st[q]? = some st[q] := List.getElem?_eq_getElem hq
      have hqh := hmem st[q] (List.getElem?_mem hsq)
      simp only [elemAtB, hsq]
      cases hslq : st[q] with
      | element e => rfl
      | hole l => rw [hslq] at hqh; exact absurd hqh (by simp [Slot.isHole])
    · intro hge
      rw [hc] at hge
      omega
  · have hpos : 0 < st.countP Slot.isHole := Nat.pos_of_ne_zero hc
    have hex : ∃ p, holeAtB st p = true := by
      obtain ⟨a, ha, hpa⟩ := List.countP_pos_iff.1 hpos
      obtain ⟨nn, hnn⟩ := List.mem_iff_getElem?.1 ha
      exact ⟨nn, by simp [holeAtB, hnn, hpa]⟩
    have hp0 : holeAtB st (Nat.find hex) = true := Nat.find_spec hex
    have hmin : ∀ m, m < Nat.find hex → holeAtB st m = false := by
      intro m hm
      have hnm := Nat.find_min hex hm
      cases hval : holeAtB st m with
      | false => rfl
      | true => exact absurd hval hnm
    have hp0L : Nat.find hex < st.length := by
      by_contra hcon
      have hnone : st[Nat.find hex]? = none := List.getElem?_eq_none (by omega)
      simp [holeAtB, hnone] at hp0
    have hupper : ∀ r, Nat.find hex ≤ r → r < st.length → holeAtB st r = true :=
      hclosed (Nat.find hex) hp0L hp0
    have h1 : (st.take (Nat.find hex)).countP Slot.isHole = 0 := by
      rw [List.countP_eq_zero]
      intro a ha
      obtain ⟨nn, hnn⟩ := List.mem_iff_getElem?.1 ha
      have hlt : nn < Nat.find hex := by
        by_contra hcon
        rw [List.getElem?_take_eq_none (by omega)] at hnn
        exact Option.noConfusion hnn
      have hst : st[nn]? = some a := by
        rw [List.getElem?_take] at hnn
        rwa [if_pos hlt] at hnn
      have hfa := hmin nn hlt
      simp only [holeAtB, hst] at hfa
      simp [hfa]
    have h2 : (st.drop (Nat.find hex)).countP Slot.isHole = (st.drop (Nat.find hex)).length := by
      rw [List.countP_eq_length]
      intro a ha
      obtain ⟨nn, hnn⟩ := List.mem_iff_getElem?.1 ha
      rw [List.getElem?_drop] at hnn
      have hlt : Nat.find hex + nn < st.length := (List.getElem?_eq_some_iff.1 hnn).1
      have hfa := hupper (Nat.find hex + nn) (by omega) hlt
      simp only [holeAtB, hnn] at hfa
      exact hfa
    have hcount : countHoles st = st.length - Nat.find hex := by
      calc countHoles st = st.countP Slot.isHole := rfl
        _ = (st.take (Nat.find hex) ++ st.drop (Nat.find hex)).countP Slot.isHole := by
            rw [List.take_append_drop]
        _ = (st.take (Nat.find hex)).countP Slot.isHole
            + (st.drop (Nat.find hex)).countP Slot.isHole := by rw [List.countP_append]
        _ = 0 + (st.drop (Nat.find hex)).length := by rw [h1, h2]
        _ = st.length - Nat.find hex := by rw [List.length_drop]; omega
    constructor
    · intro hlt
      have hqp : q < Nat.find hex := by omega
      have hfq := hmin q hqp
      rw [slotDichot st hq] at hfq
      cases hval : elemAtB st q with
      | true => rfl
      | false => rw [hval] at hfq; exact absurd hfq (by simp)
    · intro hge
      exact hupper q (by omega) hq

/-- C4: `defragment()` (and `defragment_and_fix()` over the crate's
`DummyMoveFix` elements, which computes identically) leaves no holes,
preserves the multiset of live element values, and shrinks `len()` by
exactly the old `num_holes()`.  The hypothesis is the free-list invariant
that the tracked count equals the actual number of hole slots. -/
theorem c4_defragment_dense {E : Type} (s : SparseStorage E)
    (hc : s.numHoles = countHoles s.storage) :
    s.defragment.numHoles = 0 ∧
    List.Perm (liveElems s.defragment.storage) (liveElems s.storage) ∧
    s.defragment.len = s.len - s.numHoles ∧
    s.defragmentAndFixDummy = s.defragment := by
  obtain ⟨st0, hl⟩ := s
  cases hl with
  | none =>
    exact ⟨rfl, List.Perm.refl _, by simp [SparseStorage.defragment, SparseStorage.numHoles,
      SparseStorage.len], rfl⟩
  | some info =>
    obtain ⟨c, h, t⟩ := info
    have hcH : c = countHoles st0 := by
      simpa [SparseStorage.numHoles] using hc
    have hrange : List.range st0.length = List.range' 0 st0.length := List.range_eq_range' _
    obtain ⟨hlen', hperm, hclosed⟩ := defragOuter_spec st0.length 0 st0 (Nat.zero_add _)
      (fun p hp => absurd hp (Nat.not_lt_zero p))
    have hdef : (⟨st0, some (c, h, t)⟩ : SparseStorage E).defragment
        = ⟨(defragOuter (List.range' 0 st0.length) st0).take
            ((defragOuter (List.range' 0 st0.length) st0).length
              - min (defragOuter (List.range' 0 st0.length) st0).length c), none⟩ := by
      unfold SparseStorage.defragment
      rw [hrange]
    generalize hst' : defragOuter (List.range' 0 st0.length) st0 = st'
      at hdef hlen' hperm hclosed
    have hcount' : countHoles st' = countHoles st0 := hperm.countP_eq _
    have hcle : c ≤ st'.length := by
      have := List.countP_le_length (p := Slot.isHole) (l := st0)
      have hc2 : countHoles st0 ≤ st0.length := this
      omega
    have hminc : min st'.length c = c := Nat.min_eq_right hcle
    have hclosed2 : HolesClosed st' st'.length := by
      intro p hp hph qq hqq hqqL
      exact hclosed p (by omega) hph qq hqq (by omega)
    have hdropHoles : List.filterMap Slot.element? (st'.drop (st'.length - c)) = [] := by
      rw [List.filterMap_eq_nil_iff]
      intro a ha
      obtain ⟨nn, hnn⟩ := List.mem_iff_getElem?.1 ha
      rw [List.getElem?_drop] at hnn
      have hlt : st'.length - c + nn < st'.length := (List.getElem?_eq_some_iff.1 hnn).1
      have hpart := (holesClosedPartition st' hclosed2 (st'.length - c + nn) hlt).2
        (by omega)
      simp only [holeAtB, hnn] at hpart
      cases a with
      | element e => exact absurd hpart (by simp [Slot.isHole])
      | hole l => rfl
    have hsplitLive : List.filterMap Slot.element? st'
        = List.filterMap Slot.element? (st'.take (st'.length - c)) := by
      conv_lhs => rw [← List.take_append_drop (st'.length - c) st']
      rw [List.filterMap_append, hdropHoles, List.append_nil]
    refine ⟨by rw [hdef]; rfl, ?_, ?_, rfl⟩
    · rw [hdef]
      show List.Perm (liveElems ((st'.take (st'.length - min st'.length c)))) (liveElems st0)
      rw [hminc]
      show List.Perm (List.filterMap Slot.element? (st'.take (st'.length - c)))
        (List.filterMap Slot.element? st0)
      rw [← hsplitLive]
      exact hperm.filterMap _
    · rw [hdef]
      show (st'.take (st'.length - min st'.length c)).length
          = st0.length - SparseStorage.numHoles ⟨st0, some (c, h, t)⟩
      rw [hminc, List.length_take]
      have : SparseStorage.numHoles (⟨st0, some (c, h, t)⟩ : SparseStorage E) = c := rfl
      rw [this]
      omega

/-- Witness for C4 at a concrete two-slot storage holding one hole. -/
theorem c4_witness :
    ((⟨[Slot.hole none, Slot.element 7], some (1, 0, 0)⟩ : SparseStorage Nat).numHoles
        = countHoles (⟨[Slot.hole none, Slot.element 7], some (1, 0, 0)⟩ :
          SparseStorage Nat).storage) ∧
    ((⟨[Slot.hole none, Slot.element 7], some (1, 0, 0)⟩ :
        SparseStorage Nat).defragment.numHoles = 0 ∧
      List.Perm
        (liveElems (⟨[Slot.hole none, Slot.element 7], some (1, 0, 0)⟩ :
          SparseStorage Nat).defragment.storage)
        (liveElems (⟨[Slot.hole none, Slot.element 7], some (1, 0, 0)⟩ :
          SparseStorage Nat).storage) ∧
      (⟨[Slot.hole none, Slot.element 7], some (1, 0, 0)⟩ :
        SparseStorage Nat).defragment.len
        = (⟨[Slot.hole none, Slot.element 7], some (1, 0, 0)⟩ : SparseStorage Nat).len
          - (⟨[Slot.hole none, Slot.element 7], some (1, 0, 0)⟩ :
            SparseStorage Nat).numHoles ∧
      (⟨[Slot.hole none, Slot.element 7], some (1, 0, 0)⟩ :
        SparseStorage Nat).defragmentAndFixDummy
        = (⟨[Slot.hole none, Slot.element 7], some (1, 0, 0)⟩ :
          SparseStorage Nat).defragment) :=
  ⟨by decide, c4_defragment_dense _ (by decide)⟩

/-- C5 (code bug, evaluated at the failing input): defragmenting the storage
`[Hole, e1, e2]` (each element tracking its own index) with
`defragment_and_fix` swaps the hole slot twice — first with slot 2, then
with slot 1, because the inner scan of `defragment_impl` has no break after
a successful swap.  The second swap relocates the element that had just been
moved to slot 0 back up to slot 1 without any `fix_move` notification, so
compaction ends with the element at index 1 carrying the stale back
reference 0: the final storage is `[element 0, element 0]` instead of
`[element 0, element 1]`. -/
theorem c5_defragment_and_fix_stale_reference :
    SparseStorage.defragmentAndFixTrack
        ⟨[Slot.hole none, Slot.element 1, Slot.element 2], some (1, 0, 0)⟩
      = ⟨[Slot.element 0, Slot.element 0], none⟩ ∧
    (SparseStorage.defragmentAndFixTrack
        ⟨[Slot.hole none, Slot.element 1, Slot.element 2], some (1, 0, 0)⟩).storage[1]?
      = some (Slot.element 0) ∧
    (0 : Nat) ≠ 1 :=
  ⟨rfl, rfl, by decide⟩

/-- C7: with limit 4, pushing the ten values `0..9` into an empty chain
yields exactly three buffers of lengths `[4, 4, 2]`; `get i` returns the
`i`-th pushed value for every `i < 10`, and `get 10` is out of bounds. -/
theorem c7_chain_limit4_push10 :
    c7chain.contents.map List.length = [4, 4, 2] ∧
    c7chain.contents.length = 3 ∧
    (List.range 10).map c7chain.get = (List.range 10).map some ∧
    c7chain.get 10 = none := by
  decide

/-- C3 (code bug, evaluated at failing inputs): `Chain`'s cached `len` field
desynchronises from the buffers — `remove_and_shiftfix`, `insert_and_shiftfix`
and `truncate` mutate a buffer but never update `self.len`, so after any of
them `len()` no longer equals the sum of the buffer lengths. -/
theorem c3_cached_len_desync :
    (c3chain.len = 1 ∧ sumLens c3chain.contents = 1) ∧
    c3chain.removeShiftfixD 0 = .ok (7, ⟨[[]], 1, 4, true⟩) ∧
    c3chain.insertShiftfixD 0 9 = .ok ⟨[[9, 7]], 1, 4, true⟩ ∧
    c3chain.truncate 0 = ⟨[[]], 1, 4, true⟩ ∧
    ((⟨[[]], 1, 4, true⟩ : Chain Nat).len = 1 ∧
      sumLens (⟨[[]], 1, 4, true⟩ : Chain Nat).contents = 0) ∧
    ((⟨[[9, 7]], 1, 4, true⟩ : Chain Nat).len = 1 ∧
      sumLens (⟨[[9, 7]], 1, 4, true⟩ : Chain Nat).contents = 2) :=
  ⟨⟨rfl, rfl⟩, rfl, rfl, rfl, ⟨rfl, rfl⟩, ⟨rfl, rfl⟩⟩

/-- C9 (code bug, evaluated at the failing input): `Chain::shrink_to_fit`
reaches `self.remove(0)` on an empty buffer, which is the chain's
element-removal, not a buffer removal: shrinking the chain `[1,2],[]`
(cached len 2) discards the element `1`, keeps the empty buffer, and ends
with cached len 1 and a single stored element; on a fresh
`with_capacity`-style chain holding one empty buffer it panics outright. -/
theorem c9_shrink_removes_element :
    c9chain = ⟨[[1, 2], [3]], 3, 2, true⟩ ∧
    c9chain.removeE 2 = .ok (3, c9after) ∧
    Chain.shrinkToFit c9after = .ok ⟨[[2], []], 1, 2, true⟩ ∧
    sumLens c9after.contents = 2 ∧
    sumLens ([[2], []] : List (List Nat)) = 1 ∧
    (⟨[[2], []], 1, 2, true⟩ : Chain Nat).contents.contains [] = true ∧
    Chain.shrinkToFit (⟨[[]], 0, 2, true⟩ : Chain Nat)
      = .error (oobMsg, ⟨[[]], 0, 2, true⟩) :=
  ⟨rfl, rfl, rfl, rfl, rfl, by decide, rfl⟩

/-- C10: `Chain::pop` yields a value exactly when the last buffer is
non-empty — in particular, on the reachable chain `[1,2],[]` (obtained by an
interior removal) it returns `None` although two elements are stored. -/
theorem c10_pop_last_buffer :
    (∀ (T : Type) (c : Chain T), (Chain.pop c).isSome = Chain.lastBufNonempty c) ∧
    Chain.pop c9after = none ∧
    0 < sumLens c9after.contents ∧
    c9chain.removeE 2 = .ok (3, c9after) := by
  refine ⟨?_, rfl, by decide, rfl⟩
  intro T c
  unfold Chain.pop Chain.lastBufNonempty
  cases hlast : c.contents.getLast? with
  | none => rfl
  | some last =>
    cases hv : last.getLast? with
    | none =>
      have hnil : last = [] := List.getLast?_eq_none_iff.1 hv
      subst hnil
      rfl
    | some v =>
      cases last with
      | nil => simp at hv
      | cons a as => rfl

theorem insertGo_oob {T : Type} (x : T) : ∀ (bufs : List (List T)) (i : Nat),
    sumLens bufs ≤ i → insertGo x bufs i = none := by
  intro bufs
  induction bufs with
  | nil => intro i _; rfl
  | cons st rest ih =>
    intro i hi
    have hsum : st.length + sumLens rest ≤ i := by
      simpa [sumLens, Nat.add_comm] using hi
    unfold insertGo
    rw [if_neg (by omega)]
    rw [ih (i - st.length) (by omega)]

theorem removeGo_oob {T : Type} : ∀ (bufs : List (List T)) (i : Nat),
    sumLens bufs ≤ i → removeGo bufs i = none := by
  intro bufs
  induction bufs with
  | nil => intro i _; rfl
  | cons st rest ih =>
    intro i hi
    have hsum : st.length + sumLens rest ≤ i := by
      simpa [sumLens, Nat.add_comm] using hi
    unfold removeGo
    rw [List.getElem?_eq_none (by omega)]
    rw [ih (i - st.length) (by omega)]

theorem getGo_oob {T : Type} : ∀ (bufs : List (List T)) (i : Nat),
    sumLens bufs ≤ i → getGo bufs i = none := by
  intro bufs
  induction bufs with
  | nil => intro i _; rfl
  | cons st rest ih =>
    intro i hi
    have hsum : st.length + sumLens rest ≤ i := by
      simpa [sumLens, Nat.add_comm] using hi
    unfold getGo
    rw [List.getElem?_eq_none (by omega)]
    exact ih (i - st.length) (by omega)

theorem truncGo_oob {T : Type} : ∀ (bufs : List (List T)) (n : Nat),
    sumLens bufs ≤ n → truncGo bufs n = bufs := by
  intro bufs
  induction bufs with
  | nil => intro n _; rfl
  | cons st rest ih =>
    intro n hn
    have hsum : st.length + sumLens rest ≤ n := by
      simpa [sumLens, Nat.add_comm] using hn
    unfold truncGo
    rw [if_neg (by omega)]
    rw [ih (n - st.length) (by omega)]

/-- C8 counterexample: the claim says every index-translating operation,
`truncate` and `get` included, panics on a global index at or past the total
element count; but on the one-element chain `[[7]]`, `truncate 100` returns
normally leaving the chain untouched (the source scan just runs off the end
of the buffer list), and `get 100` returns the ordinary value `None` rather
than panicking. -/
theorem c8_counterexample :
    sumLens c3chain.contents ≤ 100 ∧
    c3chain.truncate 100 = c3chain ∧
    c3chain.get 100 = none :=
  ⟨by decide, rfl, rfl⟩

/-- C8 as amended: for every global index at or past the total stored
element count, `insert` and `remove` (and their shiftfix variants) panic
out of bounds without mutating the chain, while `get`/`get_mut` return
`None` and `truncate` silently does nothing. -/
theorem c8_amended_out_of_range {T : Type} (c : Chain T) (x : T) (i : Nat)
    (hi : sumLens c.contents ≤ i) :
    c.insertE i x = .error (oobMsg, c) ∧
    c.removeE i = .error (oobMsg, c) ∧
    c.insertShiftfixD i x = .error (oobMsg, c) ∧
    c.removeShiftfixD i = .error (oobMsg, c) ∧
    c.get i = none ∧
    c.getMut i = none ∧
    c.truncate i = c := by
  have h1 := insertGo_oob x c.contents i hi
  have h2 := removeGo_oob c.contents i hi
  have h3 := getGo_oob c.contents i hi
  have h4 := truncGo_oob c.contents i hi
  refine ⟨?_, ?_, ?_, ?_, ?_, ?_, ?_⟩
  · simp [Chain.insertE, h1]
  · simp [Chain.removeE, h2]
  · simp [Chain.insertShiftfixD, h1]
  · simp [Chain.removeShiftfixD, h2]
  · simp [Chain.get, h3]
  · simp [Chain.getMut, h3]
  · simp [Chain.truncate, h4]

/-- Witness for the amended C8 at the one-element chain and index 5. -/
theorem c8_amended_witness :
    sumLens c3chain.contents ≤ 5 ∧
    (c3chain.insertE 5 9 = .error (oobMsg, c3chain) ∧
      c3chain.removeE 5 = .error (oobMsg, c3chain) ∧
      c3chain.insertShiftfixD 5 9 = .error (oobMsg, c3chain) ∧
      c3chain.removeShiftfixD 5 = .error (oobMsg, c3chain) ∧
      c3chain.get 5 = none ∧
      c3chain.getMut 5 = none ∧
      c3chain.truncate 5 = c3chain) :=
  ⟨by decide, c8_amended_out_of_range c3chain 9 5 (by decide)⟩

end Granite
